import Mathlib

/-!
Verification of the etna sliding-window analytics core: a shallow embedding
of the circular candle buffer, window builder, window identity, feature
bucketing, down-sampling, outcome statistics and time-decay reranker,
with theorems settling the specification's claims against the code.

Machine floating-point values are embedded as exact rationals (ℚ); the
reranker's exponential decay is embedded over ℝ with `Real.exp`.
Go's `int(x)` float-to-int conversion truncates toward zero, embedded as
`truncQ`.
-/

namespace Etna

/-- One OHLCV bar (pkg/model candle.go).  Times are unix seconds. -/
structure Candle where
  symbol : String := ""
  timeframe : String := ""
  openTime : Int := 0
  closeTime : Int := 0
  open' : ℚ := 0
  high : ℚ := 0
  low : ℚ := 0
  close : ℚ := 0
  volume : ℚ := 0
  trades : Int := 0
  vwap : ℚ := 0
  deriving DecidableEq, Repr, Inhabited

/-- Go float-to-int conversion: truncation toward zero. -/
def truncQ (q : ℚ) : ℤ := if q < 0 then ⌈q⌉ else ⌊q⌋

/-- `ClassifyVolBucket` (pkg/model feature.go): `bucket := int((zScore+2)*2.25)`
then clamp into [0,9] via the two `if` tests. -/
def ClassifyVolBucket (zScore : ℚ) : ℤ :=
  if truncQ ((zScore + 2) * (9/4)) < 0 then 0
  else if truncQ ((zScore + 2) * (9/4)) > 9 then 9
  else truncQ ((zScore + 2) * (9/4))

/-- The classifier as the spec's words describe it: `clamp(round((z+2)*2.25), 0, 9)`,
with rounding to the nearest integer.  Written only to be compared with
`ClassifyVolBucket`. -/
def classifyVolBucketSpec (zScore : ℚ) : ℤ :=
  min 9 (max 0 (round ((zScore + 2) * (9/4))))

/-- The interpolation rank `p/100 * (n-1)` used by `percentile`. -/
def rankOf (n : ℕ) (p : ℚ) : ℚ := (p / 100) * ((n : ℚ) - 1)

/-- `percentile` (pkg/outcome engine.go): p-th percentile of a sorted list by
linear interpolation between the floor and ceil of `rank = p/100*(n-1)`.
`lower := int(math.Floor(rank))` and `upper := int(math.Ceil(rank))` are the
floor/ceil converted to machine ints (equal to `toNat` of floor/ceil for the
nonnegative ranks that arise), and `fraction := rank - float64(lower)`. -/
def percentile (sorted : List ℚ) (p : ℚ) : ℚ :=
  if sorted.length = 0 then 0
  else if sorted.length = 1 then sorted.getD 0 0
  else if (⌊rankOf sorted.length p⌋).toNat = (⌈rankOf sorted.length p⌉).toNat then
    sorted.getD (⌊rankOf sorted.length p⌋).toNat 0
  else
    sorted.getD (⌊rankOf sorted.length p⌋).toNat 0
      + (rankOf sorted.length p - ((⌊rankOf sorted.length p⌋).toNat : ℚ))
        * (sorted.getD (⌈rankOf sorted.length p⌉).toNat 0
            - sorted.getD (⌊rankOf sorted.length p⌋).toNat 0)

/-- `mean` (pkg/outcome engine.go). -/
def listMean (values : List ℚ) : ℚ :=
  if values.length = 0 then 0 else values.sum / (values.length : ℚ)

/-- Circular candle buffer (pkg/window/ring_buffer.go).  The backing slice
`data` (length `capacity`) is embedded as a list; reads go through `getD`
with in-range indices. -/
structure RingBuffer where
  data : List Candle
  capacity : ℕ
  size : ℕ
  head : ℕ
  deriving Repr

/-- `NewRingBuffer`: zeroed slice of the given capacity, size 0, head 0. -/
def NewRingBuffer (capacity : ℕ) : RingBuffer :=
  { data := List.replicate capacity default, capacity := capacity, size := 0, head := 0 }

/-- `RingBuffer.Push`: write at `head`, advance `head` modulo capacity,
grow `size` until it reaches capacity. -/
def RingBuffer.Push (rb : RingBuffer) (c : Candle) : RingBuffer :=
  { data := rb.data.set rb.head c
    capacity := rb.capacity
    head := (rb.head + 1) % rb.capacity
    size := if rb.size < rb.capacity then rb.size + 1 else rb.size }

/-- `RingBuffer.Push` with the Go panics made explicit: on a zero-capacity
buffer the write `rb.data[rb.head]` is out of range for the empty backing
slice and `(rb.head+1) % rb.capacity` divides by zero, so the call aborts
(`none`). -/
def RingBuffer.PushChecked (rb : RingBuffer) (c : Candle) : Option RingBuffer :=
  if rb.capacity = 0 then none else some (rb.Push c)

/-- `RingBuffer.Size`. -/
def RingBuffer.Size (rb : RingBuffer) : ℕ := rb.size

/-- `RingBuffer.IsFull`. -/
def RingBuffer.IsFull (rb : RingBuffer) : Bool := rb.size = rb.capacity

/-- The start position (oldest element) computed inside `ToSlice`. -/
def RingBuffer.startIdx (rb : RingBuffer) : ℕ :=
  if rb.size = rb.capacity then rb.head else 0

/-- `RingBuffer.ToSlice`: the held candles oldest-first. -/
def RingBuffer.ToSlice (rb : RingBuffer) : List Candle :=
  (List.range rb.size).map (fun i => rb.data.getD ((rb.startIdx + i) % rb.capacity) default)

/-- `RingBuffer.Last`: the most recent candle, `nil` when empty.  The Go index
`(rb.head - 1 + rb.capacity) % rb.capacity` is signed arithmetic, embedded
over ℤ. -/
def RingBuffer.Last (rb : RingBuffer) : Option Candle :=
  if rb.size = 0 then none
  else some (rb.data.getD ((((rb.head : ℤ) - 1 + rb.capacity) % (rb.capacity : ℤ)).toNat) default)

/-- Pushing a whole list of candles in order. -/
def pushAll (rb : RingBuffer) (cs : List Candle) : RingBuffer :=
  cs.foldl RingBuffer.Push rb

/-! ### SHA-256 (Go crypto/sha256, FIPS 180-4), over ℕ with explicit mod 2^32 -/

/-- Right rotation of a 32-bit word. -/
def rotr32 (n x : ℕ) : ℕ := (x / 2^n + (x % 2^n) * 2^(32 - n)) % 2^32

/-- Logical right shift of a 32-bit word. -/
def shr32 (n x : ℕ) : ℕ := x / 2^n

/-- Bitwise complement of a 32-bit word. -/
def not32 (x : ℕ) : ℕ := Nat.xor x (2^32 - 1)

def bigSigma0 (x : ℕ) : ℕ := Nat.xor (Nat.xor (rotr32 2 x) (rotr32 13 x)) (rotr32 22 x)

def bigSigma1 (x : ℕ) : ℕ := Nat.xor (Nat.xor (rotr32 6 x) (rotr32 11 x)) (rotr32 25 x)

def smallSigma0 (x : ℕ) : ℕ := Nat.xor (Nat.xor (rotr32 7 x) (rotr32 18 x)) (shr32 3 x)

def smallSigma1 (x : ℕ) : ℕ := Nat.xor (Nat.xor (rotr32 17 x) (rotr32 19 x)) (shr32 10 x)

def chFn (x y z : ℕ) : ℕ := Nat.xor (Nat.land x y) (Nat.land (not32 x) z)

def majFn (x y z : ℕ) : ℕ := Nat.xor (Nat.xor (Nat.land x y) (Nat.land x z)) (Nat.land y z)

/-- The 64 SHA-256 round constants (decimal). -/
def sha256K : List ℕ :=
  [1116352408, 1899447441, 3049323471, 3921009573, 961987163, 1508970993,
   2453635748, 2870763221, 3624381080, 310598401, 607225278, 1426881987,
   1925078388, 2162078206, 2614888103, 3248222580, 3835390401, 4022224774,
   264347078, 604807628, 770255983, 1249150122, 1555081692, 1996064986,
   2554220882, 2821834349, 2952996808, 3210313671, 3336571891, 3584528711,
   113926993, 338241895, 666307205, 773529912, 1294757372, 1396182291,
   1695183700, 1986661051, 2177026350, 2456956037, 2730485921, 2820302411,
   3259730800, 3345764771, 3516065817, 3600352804, 4094571909, 275423344,
   430227734, 506948616, 659060556, 883997877, 958139571, 1322822218,
   1537002063, 1747873779, 1955562222, 2024104815, 2227730452, 2361852424,
   2428436474, 2756734187, 3204031479, 3329325298]

/-- Big-endian byte encoding of `x` on `n` bytes. -/
def beBytes (n x : ℕ) : List ℕ := (List.range n).map (fun i => x / 2^(8 * (n - 1 - i)) % 256)

/-- Big-endian 32-bit words from a byte list (one word per 4 bytes). -/
def toWordsBE : List ℕ → List ℕ
  | a :: b :: c :: d :: rest => (((a * 256 + b) * 256 + c) * 256 + d) :: toWordsBE rest
  | _ => []

/-- Next word of the SHA-256 message schedule. -/
def scheduleWord (ws : List ℕ) : ℕ :=
  (smallSigma1 (ws.getD (ws.length - 2) 0) + ws.getD (ws.length - 7) 0
    + smallSigma0 (ws.getD (ws.length - 15) 0) + ws.getD (ws.length - 16) 0) % 2^32

/-- Extend the 16-word schedule by `n` more words. -/
def extendSchedule (ws : List ℕ) : ℕ → List ℕ
  | 0 => ws
  | n + 1 => extendSchedule (ws ++ [scheduleWord ws]) n

/-- Eight 32-bit hash words (the a..h working variables / H0..H7 state). -/
structure Hash8 where
  h0 : ℕ
  h1 : ℕ
  h2 : ℕ
  h3 : ℕ
  h4 : ℕ
  h5 : ℕ
  h6 : ℕ
  h7 : ℕ

/-- SHA-256 initial hash value (decimal). -/
def sha256Init : Hash8 :=
  ⟨1779033703, 3144134277, 1013904242, 2773480762,
   1359893119, 2600822924, 528734635, 1541459225⟩

/-- One compression round: `kw` is the pair (round constant, schedule word). -/
def roundStep (v : Hash8) (kw : ℕ × ℕ) : Hash8 :=
  let t1 := (v.h7 + bigSigma1 v.h4 + chFn v.h4 v.h5 v.h6 + kw.1 + kw.2) % 2^32
  let t2 := (bigSigma0 v.h0 + majFn v.h0 v.h1 v.h2) % 2^32
  ⟨(t1 + t2) % 2^32, v.h0, v.h1, v.h2, (v.h3 + t1) % 2^32, v.h4, v.h5, v.h6⟩

/-- Compress one 64-byte chunk into the running hash state. -/
def compressChunk (H : Hash8) (chunk : List ℕ) : Hash8 :=
  let ws := extendSchedule (toWordsBE chunk) 48
  let v := (sha256K.zip ws).foldl roundStep H
  ⟨(H.h0 + v.h0) % 2^32, (H.h1 + v.h1) % 2^32, (H.h2 + v.h2) % 2^32, (H.h3 + v.h3) % 2^32,
   (H.h4 + v.h4) % 2^32, (H.h5 + v.h5) % 2^32, (H.h6 + v.h6) % 2^32, (H.h7 + v.h7) % 2^32⟩

/-- SHA-256 padding: 0x80, zeros to 56 mod 64, then the 64-bit big-endian bit length. -/
def padMessage (msg : List ℕ) : List ℕ :=
  msg ++ [128] ++ List.replicate ((120 - ((msg.length + 1) % 64)) % 64) 0
    ++ beBytes 8 (8 * msg.length)

/-- Split a byte list into 64-byte chunks. -/
def chunks64 (l : List ℕ) : List (List ℕ) :=
  if h : l = [] then []
  else l.take 64 :: chunks64 (l.drop 64)
termination_by l.length
decreasing_by
  simp only [List.length_drop]
  have hl : l.length ≠ 0 := fun hl => h (List.length_eq_zero.mp hl)
  omega

/-- Full SHA-256 digest (32 bytes) of a byte message. -/
def sha256 (msg : List ℕ) : List ℕ :=
  let final := (chunks64 (padMessage msg)).foldl compressChunk sha256Init
  beBytes 4 final.h0 ++ beBytes 4 final.h1 ++ beBytes 4 final.h2 ++ beBytes 4 final.h3
    ++ beBytes 4 final.h4 ++ beBytes 4 final.h5 ++ beBytes 4 final.h6 ++ beBytes 4 final.h7

/-- Lower-case hex digit. -/
def hexChar (n : ℕ) : Char := Char.ofNat (if n < 10 then 48 + n else 87 + n)

/-- `hex.EncodeToString`: two lower-case hex digits per byte. -/
def hexEncode (bs : List ℕ) : String :=
  String.mk ((bs.map (fun b => [hexChar (b / 16), hexChar (b % 16)])).flatten)

/-- UTF-8 bytes of a string. -/
def strToBytes (s : String) : List ℕ := s.toUTF8.toList.map (fun b => b.toNat)

/-! ### Window identity and window builder -/

/-- The `fmt.Sprintf("%s|%s|%d|%d|%d", ...)` identity string: symbol,
timeframe, t_end unix seconds, W, feature version. -/
def windowIDString (symbol timeframe : String) (tEndUnix w featureVersion : ℤ) : String :=
  symbol ++ "|" ++ timeframe ++ "|" ++ toString tEndUnix ++ "|" ++ toString w ++ "|"
    ++ toString featureVersion

/-- `GenerateWindowID` (pkg/model window.go): hex of the first 16 bytes of the
SHA-256 digest of the identity string. -/
def GenerateWindowID (symbol timeframe : String) (tEndUnix w featureVersion : ℤ) : String :=
  hexEncode ((sha256 (strToBytes (windowIDString symbol timeframe tEndUnix w featureVersion))).take 16)

/-- A sliding window of candles (pkg/model window.go).  Times are unix
seconds; `CreatedAt` is the ambient wall clock at construction. -/
structure Window where
  WindowID : String
  Symbol : String
  Timeframe : String
  TEnd : ℤ
  W : ℤ
  FeatureVersion : ℤ
  Candles : List Candle
  CreatedAt : ℤ

/-- `NewWindow`: build a window with generated ID.  `now` is the external
clock read (`time.Now()`), passed explicitly in the embedding. -/
def NewWindow (symbol timeframe : String) (tEnd w featureVersion : ℤ)
    (candles : List Candle) (now : ℤ) : Window :=
  { WindowID := GenerateWindowID symbol timeframe tEnd w featureVersion
    Symbol := symbol
    Timeframe := timeframe
    TEnd := tEnd
    W := w
    FeatureVersion := featureVersion
    Candles := candles
    CreatedAt := now }

/-- `Window.LastCandle`. -/
def Window.LastCandle (w : Window) : Option Candle := w.Candles.getLast?

/-- Window builder configuration (pkg/window/builder.go). -/
structure Config where
  W : ℕ
  S : ℕ
  Warmup : ℤ
  FeatureVersion : ℤ
  Symbol : String
  Timeframe : String

/-- Window builder state (pkg/window/builder.go). -/
structure Builder where
  W : ℕ
  S : ℕ
  Warmup : ℕ
  FeatureVersion : ℤ
  Symbol : String
  Timeframe : String
  buffer : RingBuffer
  stepCount : ℕ
  warmedUp : Bool

/-- `NewBuilder`: Warmup defaults to W when unset or ≤ 0. -/
def NewBuilder (cfg : Config) : Builder :=
  { W := cfg.W
    S := cfg.S
    Warmup := if cfg.Warmup ≤ 0 then cfg.W else cfg.Warmup.toNat
    FeatureVersion := cfg.FeatureVersion
    Symbol := cfg.Symbol
    Timeframe := cfg.Timeframe
    buffer := NewRingBuffer cfg.W
    stepCount := 0
    warmedUp := false }

/-- `Builder.Push` (pkg/window/builder.go): enqueue, bump the step counter,
complete warmup when the buffer size reaches `Warmup` (forcing the counter to
`S`), and emit at most one window when warmed-up, full, and the counter has
reached `S`.  `now` is the ambient clock for `NewWindow`'s `CreatedAt`. -/
def Builder.Push (b : Builder) (c : Candle) (now : ℤ) : Builder × Option Window :=
  let buf := b.buffer.Push c
  let step0 := b.stepCount + 1
  let warmed := if b.warmedUp = false ∧ b.Warmup ≤ buf.Size then true else b.warmedUp
  let step1 := if b.warmedUp = false ∧ b.Warmup ≤ buf.Size then b.S else step0
  if warmed = false ∨ buf.IsFull = false then
    ({ b with buffer := buf, stepCount := step1, warmedUp := warmed }, none)
  else if step1 < b.S then
    ({ b with buffer := buf, stepCount := step1, warmedUp := warmed }, none)
  else
    match buf.Last with
    | none => ({ b with buffer := buf, stepCount := 0, warmedUp := warmed }, none)
    | some last =>
        ({ b with buffer := buf, stepCount := 0, warmedUp := warmed },
          some (NewWindow b.Symbol b.Timeframe last.closeTime (b.W : ℤ) b.FeatureVersion
            buf.ToSlice now))

/-- Repeated single pushes, keeping each push's optional emission in order. -/
def Builder.pushSeq (b : Builder) (cs : List Candle) (now : ℤ) : Builder × List (Option Window) :=
  match cs with
  | [] => (b, [])
  | c :: rest =>
      let r1 := b.Push c now
      let r2 := r1.1.pushSeq rest now
      (r2.1, r1.2 :: r2.2)

/-- `Builder.ProcessCandles`: push a batch, collecting the emitted windows. -/
def Builder.ProcessCandles (b : Builder) (cs : List Candle) (now : ℤ) : Builder × List Window :=
  ((b.pushSeq cs now).1, (b.pushSeq cs now).2.filterMap id)

/-! ### Time-decay reranker (pkg/rerank, part of the similarity pipeline) -/

/-- A similarity-search result (pkg/store/milvus collection.go).  The float32
score and the `TEnd` timestamp (unix seconds) are embedded over ℝ. -/
structure SearchResult where
  WindowID : String
  Score : ℝ
  Symbol : String
  Timeframe : String
  TEnd : ℝ
  VolBucket : ℤ
  TrendBucket : ℤ
  DataVersion : ℤ

/-- `rerank.TimeDecayConfig`. -/
structure TimeDecayConfig where
  Lambda : ℝ
  UseSegments : Bool
  RecentDays : ℝ
  MediumDays : ℝ
  RecentWeight : ℝ
  MediumWeight : ℝ
  OldWeight : ℝ

/-- `rerank.RankedResult`: the embedded search result with original score,
time weight, and fused final score. -/
structure RankedResult where
  result : SearchResult
  OriginalScore : ℝ
  TimeWeight : ℝ
  FinalScore : ℝ

/-- `Reranker.exponentialDecay`: `exp(-λ · ageDays)`. -/
noncomputable def exponentialDecay (cfg : TimeDecayConfig) (ageDays : ℝ) : ℝ :=
  Real.exp (-cfg.Lambda * ageDays)

/-- `Reranker.segmentWeight`: three fixed time-segment weights. -/
noncomputable def segmentWeight (cfg : TimeDecayConfig) (ageDays : ℝ) : ℝ :=
  if ageDays ≤ cfg.RecentDays then cfg.RecentWeight
  else if ageDays ≤ cfg.MediumDays then cfg.MediumWeight
  else cfg.OldWeight

/-- The per-result body of `Reranker.Rerank`: age in days since `TEnd`
(clamped at 0), decay weight, fused score = score × weight. -/
noncomputable def rerankOne (cfg : TimeDecayConfig) (now : ℝ) (r : SearchResult) :
    RankedResult :=
  let ageDays0 := (now - r.TEnd) / 86400
  let ageDays := if ageDays0 < 0 then 0 else ageDays0
  let weight := if cfg.UseSegments then segmentWeight cfg ageDays
    else exponentialDecay cfg ageDays
  { result := r, OriginalScore := r.Score, TimeWeight := weight,
    FinalScore := r.Score * weight }

/-- Descending order on fused score, the comparator `sort.Slice` is given. -/
def byFinalScoreDesc (a b : RankedResult) : Prop := b.FinalScore ≤ a.FinalScore

noncomputable instance : DecidableRel byFinalScoreDesc :=
  fun a b => Real.decidableLE _ _

instance : IsTotal RankedResult byFinalScoreDesc :=
  ⟨fun a b => le_total b.FinalScore a.FinalScore⟩

instance : IsTrans RankedResult byFinalScoreDesc :=
  ⟨fun _ _ _ hab hbc => le_trans hbc hab⟩

/-- `Reranker.Rerank`: score every result, then sort by fused score
descending.  `sort.Slice` is an unstable comparison sort, so any sorted
permutation of the scored results is a faithful embedding; insertion sort is
used here. -/
noncomputable def Rerank (cfg : TimeDecayConfig) (results : List SearchResult) (now : ℝ) :
    List RankedResult :=
  (results.map (rerankOne cfg now)).insertionSort byFinalScoreDesc

/-! ### Down-sampling (pkg/queue/nats/client.go, `downsample`) -/

/-- The bucket start index `int(float64(i) * ratio)` with `ratio = len/targetLen`
(truncation = floor for these nonnegative values). -/
def bucketStart (len t i : ℕ) : ℕ := (⌊(i : ℚ) * ((len : ℚ) / (t : ℚ))⌋).toNat

/-- The bucket end index `int(float64(i+1) * ratio)` clamped to `len`. -/
def bucketEnd (len t i : ℕ) : ℕ :=
  min ((⌊((i : ℚ) + 1) * ((len : ℚ) / (t : ℚ))⌋).toNat) len

/-- `downsample`: unchanged when already at or below the target length;
otherwise one slot per bucket, averaging `values[start..end)` and leaving 0
when the bucket is empty (`count > 0` guard). -/
def downsample (values : List ℚ) (targetLen : ℕ) : List ℚ :=
  if values.length ≤ targetLen then values
  else
    (List.range targetLen).map (fun i =>
      let bucket := (values.drop (bucketStart values.length targetLen i)).take
        (bucketEnd values.length targetLen i - bucketStart values.length targetLen i)
      if bucket.length > 0 then bucket.sum / (bucket.length : ℚ) else 0)

/-- Down-sampling as the spec's words describe it, with the bucket upper
boundary `ceil((i+1)*ratio)` instead of the code's floor.  Written only to be
compared with `downsample`. -/
def downsampleSpec (values : List ℚ) (targetLen : ℕ) : List ℚ :=
  if values.length ≤ targetLen then values
  else
    (List.range targetLen).map (fun i =>
      let bucket := (values.drop (bucketStart values.length targetLen i)).take
        (min ((⌈((i : ℚ) + 1) * ((values.length : ℚ) / (targetLen : ℚ))⌉).toNat) values.length
          - bucketStart values.length targetLen i)
      if bucket.length > 0 then bucket.sum / (bucket.length : ℚ) else 0)

/-! ### Outcome engine (pkg/outcome engine.go) -/

/-- `outcome.Result`: forward statistics for one (window, horizon) pair. -/
structure OutcomeResult where
  WindowID : String
  Horizon : ℕ
  FwdRetMean : ℚ
  FwdRetP10 : ℚ
  FwdRetP50 : ℚ
  FwdRetP90 : ℚ
  MDDP95 : ℚ
  FwdCandles : ℕ
  deriving DecidableEq, Repr

/-- `calculateMDD`: maximum drawdown against a running peak seeded at the
base price. -/
def calculateMDD (basePrice : ℚ) (candles : List Candle) : ℚ :=
  if candles.length = 0 ∨ basePrice = 0 then 0
  else
    (candles.foldl
      (fun st c =>
        let peak := if c.high > st.1 then c.high else st.1
        let dd := (peak - c.low) / peak
        (peak, if dd > st.2 then dd else st.2))
      ((basePrice, 0) : ℚ × ℚ)).2

/-- `calculateStats`: per-candle returns against the base price, mean and
p10/p50/p90 of the ascending-sorted returns, and the drawdown. -/
def calculateStats (windowID : String) (horizon : ℕ) (basePrice : ℚ)
    (candles : List Candle) : OutcomeResult :=
  if candles.length = 0 then
    { WindowID := windowID, Horizon := horizon, FwdRetMean := 0, FwdRetP10 := 0,
      FwdRetP50 := 0, FwdRetP90 := 0, MDDP95 := 0, FwdCandles := 0 }
  else
    { WindowID := windowID
      Horizon := horizon
      FwdRetMean := listMean (candles.map (fun c => (c.close - basePrice) / basePrice))
      FwdRetP10 := percentile
        ((candles.map (fun c => (c.close - basePrice) / basePrice)).insertionSort (· ≤ ·)) 10
      FwdRetP50 := percentile
        ((candles.map (fun c => (c.close - basePrice) / basePrice)).insertionSort (· ≤ ·)) 50
      FwdRetP90 := percentile
        ((candles.map (fun c => (c.close - basePrice) / basePrice)).insertionSort (· ≤ ·)) 90
      MDDP95 := calculateMDD basePrice candles
      FwdCandles := candles.length }

/-- `Engine.Calculate`, with the external candle store factored out: each
window comes paired with the forward candles the store returned for it.
Windows with no last candle or zero base price are skipped; a window with
fewer forward candles than the horizon yields a partial result with only the
count.  The Go function's error component is always `nil`, embedded as
`Except.ok`. -/
def Calculate (windows : List (Window × List Candle)) (horizons : List ℕ) :
    Except String (List OutcomeResult) :=
  .ok (windows.foldl
    (fun acc wc =>
      match wc.1.LastCandle with
      | none => acc
      | some last =>
          if last.close = 0 then acc
          else
            acc ++ horizons.map (fun horizon =>
              if wc.2.length < horizon then
                { WindowID := wc.1.WindowID, Horizon := horizon, FwdRetMean := 0,
                  FwdRetP10 := 0, FwdRetP50 := 0, FwdRetP90 := 0, MDDP95 := 0,
                  FwdCandles := wc.2.length }
              else calculateStats wc.1.WindowID horizon last.close (wc.2.take horizon)))
    [])

/-- The spec's percentile formula with the interpolation applied unconditionally:
`rank = p/100*(n-1)`, value `v_lo + (rank - floor rank) * (v_hi - v_lo)` between the
entries at the floor and the ceiling of the rank. -/
def percentileSpecFormula (sorted : List ℚ) (p : ℚ) : ℚ :=
  sorted.getD (⌊rankOf sorted.length p⌋).toNat 0
    + (rankOf sorted.length p - ((⌊rankOf sorted.length p⌋ : ℤ) : ℚ))
      * (sorted.getD (⌈rankOf sorted.length p⌉).toNat 0
          - sorted.getD (⌊rankOf sorted.length p⌋).toNat 0)

end Etna

namespace Etna

/-- Monotonicity of truncation toward zero. -/
theorem truncQ_mono {a b : ℚ} (h : a ≤ b) : truncQ a ≤ truncQ b := by
  unfold truncQ
  split <;> split
  · exact Int.ceil_le_ceil h
  · rename_i ha hb
    push_neg at hb
    calc ⌈a⌉ ≤ ⌈(0:ℚ)⌉ := Int.ceil_le_ceil ha.le
    _ = 0 := by simp
    _ ≤ ⌊b⌋ := Int.le_floor.mpr (by exact_mod_cast hb)
  · rename_i ha hb
    push_neg at ha
    exact absurd h (not_le.mpr (hb.trans_le ha))
  · exact Int.floor_le_floor h

theorem truncQ_nonpos {a : ℚ} (h : a ≤ 0) : truncQ a ≤ 0 := by
  unfold truncQ
  split
  · exact Int.ceil_le.mpr (by exact_mod_cast h)
  · exact Int.floor_nonpos h

theorem le_truncQ_of_nonneg {a : ℚ} {n : ℤ} (hn : 0 ≤ n) (h : (n : ℚ) ≤ a) :
    n ≤ truncQ a := by
  unfold truncQ
  have ha : ¬ a < 0 := not_lt.mpr (le_trans (by exact_mod_cast hn) h)
  rw [if_neg ha]
  exact Int.le_floor.mpr h

theorem classifyVolBucket_eq_clamp (z : ℚ) :
    ClassifyVolBucket z = min 9 (max 0 (truncQ ((z + 2) * (9/4)))) := by
  unfold ClassifyVolBucket
  split <;> rename_i h1
  · omega
  · split <;> omega

/-- C3: the claim's rounding behaviour fails at z = 1/8: the scaled value is
4.78125, the code truncates it to bucket 4 while rounding to nearest gives 5. -/
theorem classifyVolBucket_round_counterexample :
    ClassifyVolBucket (1/8) = 4 ∧ classifyVolBucketSpec (1/8) = 5 ∧
      ClassifyVolBucket (1/8) ≠ classifyVolBucketSpec (1/8) := by
  have ht : truncQ ((1/8 + 2 : ℚ) * (9/4)) = 4 := by
    norm_num [truncQ]
  have hr : round ((1/8 + 2 : ℚ) * (9/4)) = 5 := by
    norm_num [round_eq]
  have h4 : ClassifyVolBucket (1/8) = 4 := by
    unfold ClassifyVolBucket
    rw [ht]
    norm_num
  have h5 : classifyVolBucketSpec (1/8) = 5 := by
    unfold classifyVolBucketSpec
    rw [hr]
    norm_num
  exact ⟨h4, h5, by rw [h4, h5]; norm_num⟩

/-- C3 (amended): the volume bucket classifier returns
`clamp(trunc((z+2)*2.25), 0, 9)` where `trunc` truncates toward zero (Go's
float-to-int conversion), and it is monotone non-decreasing, saturating at 0
for z ≤ -2 and at 9 for z ≥ 2, with every output in [0, 9]. -/
theorem classifyVolBucket_trunc_clamp_monotone (z z₁ z₂ : ℚ) (h : z₁ ≤ z₂) :
    ClassifyVolBucket z = min 9 (max 0 (truncQ ((z + 2) * (9/4)))) ∧
    ClassifyVolBucket z₁ ≤ ClassifyVolBucket z₂ ∧
    (z ≤ -2 → ClassifyVolBucket z = 0) ∧
    (2 ≤ z → ClassifyVolBucket z = 9) ∧
    0 ≤ ClassifyVolBucket z ∧ ClassifyVolBucket z ≤ 9 := by
  refine ⟨classifyVolBucket_eq_clamp z, ?_, ?_, ?_, ?_, ?_⟩
  · rw [classifyVolBucket_eq_clamp, classifyVolBucket_eq_clamp]
    have ht : truncQ ((z₁ + 2) * (9/4)) ≤ truncQ ((z₂ + 2) * (9/4)) :=
      truncQ_mono (by nlinarith)
    omega
  · intro hz
    rw [classifyVolBucket_eq_clamp]
    have ht : truncQ ((z + 2) * (9/4)) ≤ 0 := truncQ_nonpos (by nlinarith)
    omega
  · intro hz
    rw [classifyVolBucket_eq_clamp]
    have ht : (9:ℤ) ≤ truncQ ((z + 2) * (9/4)) :=
      le_truncQ_of_nonneg (by norm_num) (by push_cast; nlinarith)
    omega
  · rw [classifyVolBucket_eq_clamp]; omega
  · rw [classifyVolBucket_eq_clamp]; omega

theorem classifyVolBucket_trunc_clamp_monotone_witness :
    (0:ℚ) ≤ 1 ∧
    (ClassifyVolBucket 3 = min 9 (max 0 (truncQ ((3 + 2) * (9/4)))) ∧
      ClassifyVolBucket 0 ≤ ClassifyVolBucket 1 ∧
      ((3:ℚ) ≤ -2 → ClassifyVolBucket 3 = 0) ∧
      ((2:ℚ) ≤ 3 → ClassifyVolBucket 3 = 9) ∧
      0 ≤ ClassifyVolBucket 3 ∧ ClassifyVolBucket 3 ≤ 9) :=
  ⟨by norm_num, classifyVolBucket_trunc_clamp_monotone 3 0 1 (by norm_num)⟩

/-- C8: the percentile function interpolates linearly at rank `p/100*(n-1)`:
the two concrete examples hold, a one-element list returns its sole value for
every p, and for lists of length ≥ 2 with 0 ≤ p ≤ 100 the result equals the
unconditional interpolation formula between the floor-rank and ceil-rank
entries. -/
theorem percentile_eq_specFormula (sorted : List ℚ) (p : ℚ)
    (hlen : 2 ≤ sorted.length) (hp0 : 0 ≤ p) :
    percentile sorted p = percentileSpecFormula sorted p := by
  have h0 : sorted.length ≠ 0 := by omega
  have h1 : sorted.length ≠ 1 := by omega
  have hrank0 : (0:ℚ) ≤ rankOf sorted.length p := by
    unfold rankOf
    have hn : (2:ℚ) ≤ (sorted.length : ℚ) := by exact_mod_cast hlen
    have hp : (0:ℚ) ≤ p / 100 := by positivity
    nlinarith
  have hfl : (0:ℤ) ≤ ⌊rankOf sorted.length p⌋ := Int.floor_nonneg.mpr hrank0
  unfold percentile percentileSpecFormula
  rw [if_neg h0, if_neg h1]
  set rank : ℚ := rankOf sorted.length p with hrank
  split <;> rename_i heq
  · -- floor and ceil coincide: the fraction is 0 and both sides are the entry there
    have hcl : (0:ℤ) ≤ ⌈rank⌉ := le_trans hfl (Int.floor_le_ceil rank)
    have hfc : ⌊rank⌋ = ⌈rank⌉ := by omega
    have hint : (⌊rank⌋ : ℚ) = rank := by
      refine le_antisymm (Int.floor_le rank) ?_
      calc rank ≤ (⌈rank⌉ : ℚ) := Int.le_ceil rank
      _ = (⌊rank⌋ : ℚ) := by rw [hfc]
    rw [← hfc, hint]
    ring
  · have hcast : ((⌊rank⌋.toNat : ℕ) : ℚ) = (⌊rank⌋ : ℚ) := by
      exact_mod_cast congrArg (fun n : ℤ => (n : ℚ)) (Int.toNat_of_nonneg hfl)
    rw [hcast]

/-- C8: the percentile function interpolates linearly at rank `p/100*(n-1)`:
the two concrete examples hold, a one-element list returns its sole value for
every p, and for lists of length ≥ 2 with 0 ≤ p ≤ 100 the result equals the
unconditional interpolation formula between the floor-rank and ceil-rank
entries. -/
theorem percentile_linear_interpolation :
    percentile [1,2,3,4,5] 50 = 3 ∧
    percentile [1,2] 50 = 3/2 ∧
    (∀ (x p : ℚ), percentile [x] p = x) ∧
    (∀ (sorted : List ℚ) (p : ℚ), 2 ≤ sorted.length → 0 ≤ p → p ≤ 100 →
      percentile sorted p = percentileSpecFormula sorted p) := by
  refine ⟨?_, ?_, ?_, fun sorted p hlen hp0 _ => percentile_eq_specFormula sorted p hlen hp0⟩
  · have h1 : ⌊rankOf 5 50⌋ = 2 := by norm_num [rankOf]
    have h2 : ⌈rankOf 5 50⌉ = 2 := by
      rw [Int.ceil_eq_iff]
      norm_num [rankOf]
    simp only [percentile]
    norm_num [h1, h2]
    decide
  · have h3 : rankOf 2 50 = 1/2 := by norm_num [rankOf]
    have h1 : ⌊(1:ℚ)/2⌋ = 0 := by norm_num
    have h2 : ⌈(1:ℚ)/2⌉ = 1 := by
      rw [Int.ceil_eq_iff]
      norm_num
    simp only [percentile]
    norm_num [h3, h1, h2]
  · intro x p
    simp [percentile]

theorem percentile_linear_interpolation_witness :
    2 ≤ ([1,2,4,8] : List ℚ).length ∧ (0:ℚ) ≤ 25 ∧ (25:ℚ) ≤ 100 ∧
      percentile [1,2,4,8] 25 = percentileSpecFormula [1,2,4,8] 25 :=
  ⟨by norm_num, by norm_num, by norm_num,
    percentile_linear_interpolation.2.2.2 [1,2,4,8] 25 (by norm_num) (by norm_num) (by norm_num)⟩

theorem pushAll_append (rb : RingBuffer) (cs : List Candle) (c : Candle) :
    pushAll rb (cs ++ [c]) = (pushAll rb cs).Push c := by
  simp [pushAll, List.foldl_append]

theorem mod_add_mod_left (a b C : ℕ) : (a % C + b) % C = (a + b) % C :=
  Nat.ModEq.add_right b (Nat.mod_modEq a C)

theorem getD_set (l : List Candle) (i j : ℕ) (a d : Candle)
    (hi : i < l.length) (hj : j < l.length) :
    (l.set i a).getD j d = if i = j then a else l.getD j d := by
  rw [List.getD_eq_getElem _ _ (by simpa using hj), List.getElem_set]
  split
  · rfl
  · rw [List.getD_eq_getElem _ _ hj]

/-- Full state characterization of a ring buffer after pushing a list of
candles into a fresh buffer: the size is `min len C`, the head is `len % C`,
and reading `i` slots past the logical start yields the `i`-th of the last
`min len C` pushed candles. -/
theorem pushAll_characterization (C : ℕ) (hC : 0 < C) (cs : List Candle) :
    (pushAll (NewRingBuffer C) cs).capacity = C ∧
    (pushAll (NewRingBuffer C) cs).data.length = C ∧
    (pushAll (NewRingBuffer C) cs).size = min cs.length C ∧
    (pushAll (NewRingBuffer C) cs).head = cs.length % C ∧
    ∀ i, i < min cs.length C →
      (pushAll (NewRingBuffer C) cs).data.getD
          (((pushAll (NewRingBuffer C) cs).startIdx + i) % C) default
        = cs.getD (cs.length - min cs.length C + i) default := by
  induction cs using List.reverseRecOn with
  | nil =>
      refine ⟨rfl, by simp [pushAll, NewRingBuffer], by simp [pushAll, NewRingBuffer],
        by simp [pushAll, NewRingBuffer], ?_⟩
      intro i hi
      simp at hi
  | append_singleton cs c ih =>
      obtain ⟨hcap, hdl, hsize, hhead, hdata⟩ := ih
      rw [pushAll_append]
      set rb := pushAll (NewRingBuffer C) cs with hrb
      have hPdata : (rb.Push c).data = rb.data.set rb.head c := rfl
      have hPcap : (rb.Push c).capacity = rb.capacity := rfl
      have hPhead : (rb.Push c).head = (rb.head + 1) % rb.capacity := rfl
      have hPsize : (rb.Push c).size = if rb.size < rb.capacity then rb.size + 1 else rb.size :=
        rfl
      have hheadlt : rb.head < C := by
        rw [hhead]
        exact Nat.mod_lt _ hC
      have hcap2 : (rb.Push c).capacity = C := by rw [hPcap, hcap]
      have hdl2 : (rb.Push c).data.length = C := by rw [hPdata, List.length_set, hdl]
      have hsize2 : (rb.Push c).size = min (cs ++ [c]).length C := by
        rw [hPsize, hsize, hcap]
        simp only [List.length_append, List.length_singleton]
        split <;> omega
      have hhead2 : (rb.Push c).head = (cs ++ [c]).length % C := by
        rw [hPhead, hhead, hcap]
        simp only [List.length_append, List.length_singleton]
        exact mod_add_mod_left cs.length 1 C
      refine ⟨hcap2, hdl2, hsize2, hhead2, ?_⟩
      intro i hi
      simp only [List.length_append, List.length_singleton] at hi ⊢
      have hheadlt' : rb.head < rb.data.length := by
        rw [hdl]
        exact hheadlt
      by_cases hlen : cs.length < C
      · -- still-filling phase: len + 1 ≤ C, logical start is slot 0
        have hminN : min (cs.length + 1) C = cs.length + 1 := by omega
        have hstart : (rb.Push c).startIdx = 0 := by
          unfold RingBuffer.startIdx
          split <;> rename_i hfull
          · rw [hsize2, hcap2] at hfull
            simp only [List.length_append, List.length_singleton] at hfull
            rw [hhead2]
            simp only [List.length_append, List.length_singleton]
            have hEq : cs.length + 1 = C := by omega
            simp [hEq]
          · rfl
        rw [hstart, hminN]
        have hiC : i < C := by omega
        have hidx : (0 + i) % C = i := by rw [Nat.zero_add, Nat.mod_eq_of_lt hiC]
        rw [hidx, hPdata]
        have hilt : i < rb.data.length := by
          rw [hdl]
          omega
        rw [getD_set rb.data rb.head i c default hheadlt' hilt]
        have hheadv : rb.head = cs.length := by rw [hhead, Nat.mod_eq_of_lt hlen]
        rw [hheadv]
        by_cases hil : cs.length = i
        · rw [if_pos hil]
          rw [show cs.length + 1 - (cs.length + 1) + i = i from by omega, ← hil]
          rw [List.getD_append_right cs [c] default cs.length (le_refl _)]
          simp
        · rw [if_neg hil]
          have hiltlen : i < cs.length := by omega
          have hminO : min cs.length C = cs.length := by omega
          have hstartO : rb.startIdx = 0 := by
            unfold RingBuffer.startIdx
            rw [hsize, hcap, hminO]
            split <;> [omega; rfl]
          have hd := hdata i (by omega)
          rw [hstartO, hidx, hminO] at hd
          rw [show cs.length + 1 - (cs.length + 1) + i = i from by omega]
          rw [hd, show cs.length - cs.length + i = i from by omega]
          exact (List.getD_append cs [c] default i hiltlen).symm
      · -- overwrite phase: C ≤ len, logical start is the (moved) head
        have hCle : C ≤ cs.length := by omega
        have hminN : min (cs.length + 1) C = C := by omega
        have hminO : min cs.length C = C := by omega
        have hfull2 : (rb.Push c).size = (rb.Push c).capacity := by
          rw [hsize2, hcap2]
          simp only [List.length_append, List.length_singleton]
          omega
        have hstart : (rb.Push c).startIdx = (cs.length + 1) % C := by
          unfold RingBuffer.startIdx
          rw [if_pos hfull2, hhead2]
          simp
        rw [hstart, hminN]
        have hidx : ((cs.length + 1) % C + i) % C = (cs.length + 1 + i) % C :=
          mod_add_mod_left (cs.length + 1) i C
        rw [hidx, hPdata]
        have hidxlt : (cs.length + 1 + i) % C < rb.data.length := by
          rw [hdl]
          exact Nat.mod_lt _ hC
        rw [getD_set rb.data rb.head ((cs.length + 1 + i) % C) c default hheadlt' hidxlt]
        have hheadv : rb.head = cs.length % C := hhead
        rw [hheadv]
        by_cases hil : i = C - 1
        · subst hil
          have h1 : cs.length + 1 + (C - 1) = cs.length + C := by omega
          rw [h1, Nat.add_mod_right, if_pos rfl]
          rw [show cs.length + 1 - C + (C - 1) = cs.length from by omega]
          rw [List.getD_append_right cs [c] default cs.length (le_refl _)]
          simp
        · have hiC : i + 1 < C := by omega
          have hne : ¬ (cs.length % C = (cs.length + 1 + i) % C) := by
            intro heq
            have hmeq : cs.length ≡ cs.length + 1 + i [MOD C] := heq
            have hdvd : C ∣ cs.length + 1 + i - cs.length :=
              (Nat.modEq_iff_dvd' (by omega)).mp hmeq
            rw [show cs.length + 1 + i - cs.length = i + 1 from by omega] at hdvd
            have := Nat.le_of_dvd (by omega) hdvd
            omega
          rw [if_neg hne]
          have hstartO : rb.startIdx = cs.length % C := by
            unfold RingBuffer.startIdx
            rw [hsize, hcap, hminO, hheadv]
            simp
          have hd := hdata (i + 1) (by omega)
          rw [hstartO, hminO, mod_add_mod_left cs.length (i + 1) C] at hd
          rw [show cs.length + (i + 1) = cs.length + 1 + i from by omega] at hd
          rw [hd]
          rw [show cs.length + 1 - C + i = cs.length - C + (i + 1) from by omega]
          have hlt : cs.length - C + (i + 1) < cs.length := by omega
          exact (List.getD_append cs [c] default _ hlt).symm

theorem toSlice_pushAll (C : ℕ) (hC : 0 < C) (cs : List Candle) :
    (pushAll (NewRingBuffer C) cs).ToSlice = cs.drop (cs.length - C) := by
  obtain ⟨hcap, hdl, hsize, hhead, hdata⟩ := pushAll_characterization C hC cs
  unfold RingBuffer.ToSlice
  rw [hcap, hsize]
  apply List.ext_getElem
  · simp only [List.length_map, List.length_range, List.length_drop]
    omega
  · intro n h1 h2
    simp only [List.length_map, List.length_range] at h1
    simp only [List.getElem_map, List.getElem_range, List.getElem_drop]
    have hd := hdata n h1
    rw [hd, List.getD_eq_getElem cs default (by omega)]
    congr 1
    omega

/-- C4: after N ≤ C pushes into a fresh capacity-C buffer, `Size` is N and
`ToSlice` returns exactly the pushed candles in push order; after N > C
pushes, `Size` is C and `ToSlice` returns the most recent C pushed candles
in push order. -/
theorem ringBuffer_size_toSlice (C : ℕ) (hC : 1 ≤ C) (cs : List Candle) :
    (cs.length ≤ C →
       (pushAll (NewRingBuffer C) cs).Size = cs.length ∧
       (pushAll (NewRingBuffer C) cs).ToSlice = cs) ∧
    (C < cs.length →
       (pushAll (NewRingBuffer C) cs).Size = C ∧
       (pushAll (NewRingBuffer C) cs).ToSlice = cs.drop (cs.length - C)) := by
  obtain ⟨hcap, hdl, hsize, hhead, hdata⟩ := pushAll_characterization C hC cs
  have hts := toSlice_pushAll C hC cs
  constructor
  · intro hle
    refine ⟨?_, ?_⟩
    · rw [RingBuffer.Size, hsize]; omega
    · rw [hts, show cs.length - C = 0 from by omega, List.drop_zero]
  · intro hgt
    refine ⟨?_, ?_⟩
    · rw [RingBuffer.Size, hsize]; omega
    · exact hts

theorem ringBuffer_size_toSlice_witness :
    1 ≤ 2 ∧
    ((([(default : Candle)] : List Candle).length ≤ 2 →
       (pushAll (NewRingBuffer 2) [default]).Size = ([(default : Candle)] : List Candle).length ∧
       (pushAll (NewRingBuffer 2) [default]).ToSlice = [default]) ∧
     (2 < ([(default : Candle)] : List Candle).length →
       (pushAll (NewRingBuffer 2) [default]).Size = 2 ∧
       (pushAll (NewRingBuffer 2) [default]).ToSlice =
         ([(default : Candle)] : List Candle).drop (([(default : Candle)] : List Candle).length - 2))) :=
  ⟨by norm_num, ringBuffer_size_toSlice 2 (by norm_num) [default]⟩

/-- C10: `Push` on a buffer of capacity ≥ 1 always succeeds, but
`NewRingBuffer` accepts capacity 0 and there the very first `Push` hits the
zero modulus (and the out-of-range write into the empty backing slice) and
panics; totality of `Push` has the unstated precondition capacity ≥ 1. -/
theorem push_total_iff_capacity_pos (rb : RingBuffer) (c : Candle) :
    (1 ≤ rb.capacity → rb.PushChecked c = some (rb.Push c)) ∧
    (rb.capacity = 0 → rb.PushChecked c = none) ∧
    (∀ c' : Candle, (NewRingBuffer 0).PushChecked c' = none) := by
  refine ⟨?_, ?_, ?_⟩
  · intro h
    unfold RingBuffer.PushChecked
    rw [if_neg (by omega)]
  · intro h
    unfold RingBuffer.PushChecked
    rw [if_pos h]
  · intro c'
    rfl

/-- C9: with exponential decay and λ = 0 every reranked result carries time
weight 1 and a fused score equal to its original similarity score, regardless
of age; and in every configuration the returned list is sorted by fused score
descending. -/
theorem reranker_lambda_zero_and_sorted :
    (∀ (cfg : TimeDecayConfig) (results : List SearchResult) (now : ℝ) (r : RankedResult),
      cfg.UseSegments = false → cfg.Lambda = 0 → r ∈ Rerank cfg results now →
        r.TimeWeight = 1 ∧ r.FinalScore = r.OriginalScore) ∧
    (∀ (cfg : TimeDecayConfig) (results : List SearchResult) (now : ℝ),
      List.Sorted byFinalScoreDesc (Rerank cfg results now)) := by
  constructor
  · intro cfg results now r hseg hlam hmem
    unfold Rerank at hmem
    have hmem' : r ∈ results.map (rerankOne cfg now) :=
      (List.perm_insertionSort byFinalScoreDesc _).mem_iff.mp hmem
    obtain ⟨s, _hs, rfl⟩ := List.mem_map.mp hmem'
    unfold rerankOne exponentialDecay
    simp [hseg, hlam]
  · intro cfg results now
    exact List.sorted_insertionSort byFinalScoreDesc _

theorem reranker_lambda_zero_and_sorted_witness :
    (⟨0, false, 3, 30, 1, 7/10, 2/5⟩ : TimeDecayConfig).UseSegments = false ∧
    (⟨0, false, 3, 30, 1, 7/10, 2/5⟩ : TimeDecayConfig).Lambda = 0 ∧
    rerankOne ⟨0, false, 3, 30, 1, 7/10, 2/5⟩ 0 ⟨"w", 1, "BTCUSDT", "1m", 0, 0, 0, 0⟩
      ∈ Rerank ⟨0, false, 3, 30, 1, 7/10, 2/5⟩ [⟨"w", 1, "BTCUSDT", "1m", 0, 0, 0, 0⟩] 0 ∧
    ((rerankOne ⟨0, false, 3, 30, 1, 7/10, 2/5⟩ 0
        ⟨"w", 1, "BTCUSDT", "1m", 0, 0, 0, 0⟩).TimeWeight = 1 ∧
      (rerankOne ⟨0, false, 3, 30, 1, 7/10, 2/5⟩ 0
        ⟨"w", 1, "BTCUSDT", "1m", 0, 0, 0, 0⟩).FinalScore =
      (rerankOne ⟨0, false, 3, 30, 1, 7/10, 2/5⟩ 0
        ⟨"w", 1, "BTCUSDT", "1m", 0, 0, 0, 0⟩).OriginalScore) :=
  ⟨rfl, rfl,
    by unfold Rerank
       simp [List.insertionSort],
    reranker_lambda_zero_and_sorted.1 ⟨0, false, 3, 30, 1, 7/10, 2/5⟩
      [⟨"w", 1, "BTCUSDT", "1m", 0, 0, 0, 0⟩] 0 _ rfl rfl
      (by unfold Rerank
          simp [List.insertionSort])⟩

theorem bucketStart_lt_bucketEnd (len t i : ℕ) (ht : 0 < t) (hlt : t < len) (hi : i < t) :
    bucketStart len t i < bucketEnd len t i ∧ bucketEnd len t i ≤ len := by
  unfold bucketStart bucketEnd
  set r : ℚ := (len : ℚ) / (t : ℚ) with hr
  have htQ : (0:ℚ) < (t:ℚ) := by exact_mod_cast ht
  have hrpos : 0 < r := by
    rw [hr]
    have : (0:ℚ) < (len:ℚ) := by exact_mod_cast lt_trans ht hlt
    positivity
  have hr1 : 1 < r := by
    rw [hr, lt_div_iff htQ]
    have : (t:ℚ) < (len:ℚ) := by exact_mod_cast hlt
    linarith
  have ha0 : (0:ℤ) ≤ ⌊(i:ℚ) * r⌋ :=
    Int.floor_nonneg.mpr (mul_nonneg (Nat.cast_nonneg i) hrpos.le)
  have hb : ⌊(i:ℚ) * r⌋ + 1 ≤ ⌊((i:ℚ) + 1) * r⌋ := by
    have h1 : (i:ℚ) * r + 1 ≤ ((i:ℚ) + 1) * r := by nlinarith
    calc ⌊(i:ℚ) * r⌋ + 1 = ⌊(i:ℚ) * r + 1⌋ := (Int.floor_add_one _).symm
    _ ≤ ⌊((i:ℚ) + 1) * r⌋ := Int.floor_le_floor h1
  have halen : ⌊(i:ℚ) * r⌋ < (len:ℤ) := by
    rw [Int.floor_lt]
    have hit : (i:ℚ) < (t:ℚ) := by exact_mod_cast hi
    have h2 : (i:ℚ) * r < (t:ℚ) * r := by nlinarith
    have h3 : (t:ℚ) * r = (len:ℚ) := by
      rw [hr]
      field_simp
    push_cast
    linarith
  exact ⟨lt_min (by omega) (by omega), min_le_right _ _⟩

theorem bucketEnd_eq_next_start (len t i : ℕ) (ht : 0 < t) (hlt : t < len) (hi : i + 1 < t) :
    bucketEnd len t i = bucketStart len t (i + 1) := by
  unfold bucketStart bucketEnd
  have hcast : ((i + 1 : ℕ) : ℚ) = (i:ℚ) + 1 := by push_cast; ring
  rw [hcast]
  apply min_eq_left
  set r : ℚ := (len : ℚ) / (t : ℚ) with hr
  have htQ : (0:ℚ) < (t:ℚ) := by exact_mod_cast ht
  have hrpos : 0 < r := by
    rw [hr]
    have : (0:ℚ) < (len:ℚ) := by exact_mod_cast lt_trans ht hlt
    positivity
  have hblen : ⌊((i:ℚ) + 1) * r⌋ < (len:ℤ) := by
    rw [Int.floor_lt]
    have hit : (i:ℚ) + 1 < (t:ℚ) := by exact_mod_cast hi
    have h2 : ((i:ℚ) + 1) * r < (t:ℚ) * r := by nlinarith
    have h3 : (t:ℚ) * r = (len:ℚ) := by
      rw [hr]
      field_simp
    push_cast
    linarith
  omega

theorem bucketEnd_last (len t : ℕ) (ht : 0 < t) : bucketEnd len t (t - 1) = len := by
  unfold bucketEnd
  have h1 : (1:ℕ) ≤ t := ht
  have hcast : ((t - 1 : ℕ) : ℚ) + 1 = (t : ℚ) := by
    push_cast [h1]
    ring
  rw [hcast]
  have htQ : ((t:ℚ)) ≠ 0 := by
    have : (0:ℚ) < (t:ℚ) := by exact_mod_cast ht
    linarith
  rw [show (t:ℚ) * ((len:ℚ) / (t:ℚ)) = (len:ℚ) from by field_simp]
  rw [Int.floor_natCast]
  simp

/-- C1 (amended): down-sampling leaves inputs of length ≤ targetLen
unchanged; otherwise it partitions the input into `targetLen` contiguous
nonempty buckets with boundaries `floor(i*ratio) .. floor((i+1)*ratio)`
(the end clamped to len) — floor, i.e. Go `int` truncation, not the spec's
ceil — and each output slot is the average of its bucket. -/
theorem downsample_floor_buckets (values : List ℚ) (t : ℕ) :
    (values.length ≤ t → downsample values t = values) ∧
    (0 < t → t < values.length →
      (downsample values t).length = t ∧
      bucketStart values.length t 0 = 0 ∧
      bucketEnd values.length t (t - 1) = values.length ∧
      (∀ i, i + 1 < t → bucketEnd values.length t i = bucketStart values.length t (i + 1)) ∧
      (∀ i, i < t → bucketStart values.length t i < bucketEnd values.length t i) ∧
      (∀ i, i < t →
        (downsample values t).getD i 0 =
          ((values.drop (bucketStart values.length t i)).take
              (bucketEnd values.length t i - bucketStart values.length t i)).sum /
            (((values.drop (bucketStart values.length t i)).take
              (bucketEnd values.length t i - bucketStart values.length t i)).length : ℚ))) := by
  constructor
  · intro hle
    unfold downsample
    rw [if_pos hle]
  · intro ht hlt
    have hne : ¬ (values.length ≤ t) := by omega
    have hlen : (downsample values t).length = t := by
      unfold downsample
      rw [if_neg hne]
      simp
    refine ⟨hlen, by simp [bucketStart], bucketEnd_last values.length t ht,
      fun i hi => bucketEnd_eq_next_start values.length t i ht hlt hi,
      fun i hi => (bucketStart_lt_bucketEnd values.length t i ht hlt hi).1, ?_⟩
    intro i hi
    obtain ⟨hse, hel⟩ := bucketStart_lt_bucketEnd values.length t i ht hlt hi
    have hbuclen :
        ((values.drop (bucketStart values.length t i)).take
            (bucketEnd values.length t i - bucketStart values.length t i)).length
          = bucketEnd values.length t i - bucketStart values.length t i := by
      rw [List.length_take, List.length_drop]
      omega
    have hpos : 0 <
        ((values.drop (bucketStart values.length t i)).take
            (bucketEnd values.length t i - bucketStart values.length t i)).length := by
      omega
    unfold downsample
    rw [if_neg hne]
    rw [List.getD_eq_getElem _ _ (by simpa using hi)]
    simp only [List.getElem_map, List.getElem_range]
    rw [if_pos hpos]

/-- C1: the claim's `ceil((i+1)*ratio)` upper bucket boundary fails on
`downsample([1,2,3,4,5], 2)`: the code (floor/truncation) averages buckets
[1,2] and [3,4,5] giving [1.5, 4], while ceil boundaries would average
[1,2,3] and [3,4,5] giving [2, 4]. -/
theorem downsample_ceil_counterexample :
    downsample [1,2,3,4,5] 2 = [3/2, 4] ∧ downsampleSpec [1,2,3,4,5] 2 = [2, 4] ∧
      downsample [1,2,3,4,5] 2 ≠ downsampleSpec [1,2,3,4,5] 2 := by
  have hs0 : bucketStart 5 2 0 = 0 := by
    norm_num [bucketStart]
  have hs1 : bucketStart 5 2 1 = 2 := by
    norm_num [bucketStart]
    decide
  have he0 : bucketEnd 5 2 0 = 2 := by
    norm_num [bucketEnd]
    decide
  have he1 : bucketEnd 5 2 1 = 5 := by
    norm_num [bucketEnd]
    decide
  have hc0 : min (Int.toNat ⌈(((0:ℕ) : ℚ) + 1) * (((5:ℕ) : ℚ) / ((2:ℕ) : ℚ))⌉) 5 = 3 := by
    rw [show (((0:ℕ) : ℚ) + 1) * (((5:ℕ) : ℚ) / ((2:ℕ) : ℚ)) = 5/2 from by push_cast; ring]
    rw [show (⌈(5:ℚ)/2⌉) = 3 from by rw [Int.ceil_eq_iff] <;> norm_num]
    decide
  have hc1 : min (Int.toNat ⌈(((1:ℕ) : ℚ) + 1) * (((5:ℕ) : ℚ) / ((2:ℕ) : ℚ))⌉) 5 = 5 := by
    rw [show (((1:ℕ) : ℚ) + 1) * (((5:ℕ) : ℚ) / ((2:ℕ) : ℚ)) = 5 from by push_cast; ring]
    rw [show (⌈(5:ℚ)⌉) = 5 from by norm_num]
    decide
  have hA : downsample [1,2,3,4,5] 2 = [3/2, 4] := by
    unfold downsample
    rw [if_neg (by norm_num)]
    rw [show List.range 2 = [0, 1] from rfl]
    simp only [List.map_cons, List.map_nil]
    rw [show ([1,2,3,4,5] : List ℚ).length = 5 from rfl]
    rw [hs0, hs1, he0, he1]
    norm_num
  have hB : downsampleSpec [1,2,3,4,5] 2 = [2, 4] := by
    unfold downsampleSpec
    rw [if_neg (by norm_num)]
    rw [show List.range 2 = [0, 1] from rfl]
    simp only [List.map_cons, List.map_nil]
    rw [show ([1,2,3,4,5] : List ℚ).length = 5 from rfl]
    rw [hs0, hs1, hc0, hc1]
    norm_num
  refine ⟨hA, hB, ?_⟩
  rw [hA, hB]
  norm_num

theorem downsample_floor_buckets_witness :
    0 < 2 ∧ 2 < ([1,2,3,4,5] : List ℚ).length ∧
    ((downsample [1,2,3,4,5] 2).length = 2 ∧
      bucketStart ([1,2,3,4,5] : List ℚ).length 2 0 = 0 ∧
      bucketEnd ([1,2,3,4,5] : List ℚ).length 2 (2 - 1) = ([1,2,3,4,5] : List ℚ).length ∧
      (∀ i, i + 1 < 2 →
        bucketEnd ([1,2,3,4,5] : List ℚ).length 2 i
          = bucketStart ([1,2,3,4,5] : List ℚ).length 2 (i + 1)) ∧
      (∀ i, i < 2 →
        bucketStart ([1,2,3,4,5] : List ℚ).length 2 i
          < bucketEnd ([1,2,3,4,5] : List ℚ).length 2 i) ∧
      (∀ i, i < 2 →
        (downsample [1,2,3,4,5] 2).getD i 0 =
          ((([1,2,3,4,5] : List ℚ).drop (bucketStart ([1,2,3,4,5] : List ℚ).length 2 i)).take
              (bucketEnd ([1,2,3,4,5] : List ℚ).length 2 i
                - bucketStart ([1,2,3,4,5] : List ℚ).length 2 i)).sum /
            (((([1,2,3,4,5] : List ℚ).drop
                (bucketStart ([1,2,3,4,5] : List ℚ).length 2 i)).take
              (bucketEnd ([1,2,3,4,5] : List ℚ).length 2 i
                - bucketStart ([1,2,3,4,5] : List ℚ).length 2 i)).length : ℚ))) :=
  ⟨by norm_num, by norm_num,
    (downsample_floor_buckets [1,2,3,4,5] 2).2 (by norm_num) (by norm_num)⟩

/-- C7: when the store returns fewer forward candles than the horizon, the
engine returns (with a nil error) a result carrying the window ID, the
horizon, and the count actually found, with every statistics field zero. -/
theorem outcome_short_data_partial_result (w : Window) (cs : List Candle) (h : ℕ)
    (last : Candle) (hlast : w.LastCandle = some last) (hbase : last.close ≠ 0)
    (hshort : cs.length < h) :
    Calculate [(w, cs)] [h] =
      .ok [{ WindowID := w.WindowID, Horizon := h, FwdRetMean := 0, FwdRetP10 := 0,
             FwdRetP50 := 0, FwdRetP90 := 0, MDDP95 := 0, FwdCandles := cs.length }] := by
  unfold Calculate
  simp [hlast, hbase, hshort]

theorem outcome_short_data_partial_result_witness :
    (NewWindow "BTCUSDT" "1m" 0 3 1 [{ close := 1 }] 0).LastCandle
        = some ({ close := 1 } : Candle) ∧
    ({ close := 1 } : Candle).close ≠ 0 ∧
    ([] : List Candle).length < 1 ∧
    Calculate [(NewWindow "BTCUSDT" "1m" 0 3 1 [{ close := 1 }] 0, [])] [1] =
      .ok [{ WindowID := (NewWindow "BTCUSDT" "1m" 0 3 1 [{ close := 1 }] 0).WindowID,
             Horizon := 1, FwdRetMean := 0, FwdRetP10 := 0, FwdRetP50 := 0, FwdRetP90 := 0,
             MDDP95 := 0, FwdCandles := ([] : List Candle).length }] :=
  ⟨rfl, by norm_num, by norm_num,
    outcome_short_data_partial_result (NewWindow "BTCUSDT" "1m" 0 3 1 [{ close := 1 }] 0) [] 1
      { close := 1 } rfl (by norm_num) (by norm_num)⟩

theorem beBytes_length (n x : ℕ) : (beBytes n x).length = n := by
  simp [beBytes]

theorem sha256_length (msg : List ℕ) : (sha256 msg).length = 32 := by
  simp [sha256, beBytes]

theorem hexEncode_length (bs : List ℕ) : (hexEncode bs).length = 2 * bs.length := by
  show ((bs.map (fun b => [hexChar (b / 16), hexChar (b % 16)])).flatten).length = 2 * bs.length
  induction bs with
  | nil => rfl
  | cons b rest ih =>
      simp only [List.map_cons, List.flatten_cons, List.length_append, ih, List.length_cons,
        List.length_nil]
      omega

/-- C6: the window identifier is a pure function of the five identity fields:
two constructions differing only in candle contents (or construction clock)
share the same ID, and the ID is the hex encoding of the first 16 bytes
(128 bits) of the SHA-256 digest of `symbol|timeframe|t_end_unix|W|feature_version`,
hence 32 hex characters long. -/
theorem windowID_pure_128bit (sym tf : String) (tEnd w fv : ℤ)
    (candles₁ candles₂ : List Candle) (now₁ now₂ : ℤ) :
    (NewWindow sym tf tEnd w fv candles₁ now₁).WindowID
        = (NewWindow sym tf tEnd w fv candles₂ now₂).WindowID ∧
    (NewWindow sym tf tEnd w fv candles₁ now₁).WindowID
        = hexEncode ((sha256 (strToBytes (windowIDString sym tf tEnd w fv))).take 16) ∧
    (NewWindow sym tf tEnd w fv candles₁ now₁).WindowID.length = 32 := by
  refine ⟨rfl, rfl, ?_⟩
  show (GenerateWindowID sym tf tEnd w fv).length = 32
  unfold GenerateWindowID
  rw [hexEncode_length, List.length_take, sha256_length]
  norm_num

/-- A still-warming builder whose buffer capacity is below `Warmup` stays
warming-up and emits nothing on a push: the buffer size never exceeds the
capacity, so `size ≥ Warmup` can never fire. -/
theorem push_warming_no_emit (b : Builder) (c : Candle) (now : ℤ)
    (hwu : b.warmedUp = false) (hsz : b.buffer.size ≤ b.buffer.capacity)
    (hcap : b.buffer.capacity < b.Warmup) :
    (b.Push c now).2 = none ∧
    (b.Push c now).1.warmedUp = false ∧
    (b.Push c now).1.buffer.size ≤ (b.Push c now).1.buffer.capacity ∧
    (b.Push c now).1.buffer.capacity < (b.Push c now).1.Warmup := by
  have hnot : ¬ (b.Warmup ≤
      (if b.buffer.size < b.buffer.capacity then b.buffer.size + 1 else b.buffer.size)) := by
    split <;> omega
  unfold Builder.Push
  simp only [RingBuffer.Push, RingBuffer.Size, RingBuffer.IsFull, hnot, and_false, if_false,
    hwu, eq_self_iff_true, true_or, if_true, true_and]
  refine ⟨?_, hcap⟩
  split <;> omega

theorem pushSeq_warming_no_emit (cs : List Candle) (b : Builder) (now : ℤ)
    (hwu : b.warmedUp = false) (hsz : b.buffer.size ≤ b.buffer.capacity)
    (hcap : b.buffer.capacity < b.Warmup) :
    (b.pushSeq cs now).2.filterMap id = [] ∧ (b.pushSeq cs now).1.warmedUp = false := by
  induction cs generalizing b with
  | nil => exact ⟨rfl, hwu⟩
  | cons c rest ih =>
      obtain ⟨hnone, hwu', hsz', hcap'⟩ := push_warming_no_emit b c now hwu hsz hcap
      obtain ⟨ih1, ih2⟩ := ih (b.Push c now).1 hwu' hsz' hcap'
      simp only [Builder.pushSeq]
      exact ⟨by simp [hnone, ih1], ih2⟩

/-- C2 (amended): with Warmup strictly greater than W, the buffer size is
capped at W, so warmup never completes and no window is ever emitted, no
matter how many candles are pushed. -/
theorem warmup_gt_W_never_emits (cfg : Config) (cs : List Candle) (now : ℤ)
    (hW : 0 < cfg.W) (hS : 1 ≤ cfg.S) (hwu : (cfg.W : ℤ) < cfg.Warmup) :
    ((NewBuilder cfg).ProcessCandles cs now).2 = [] ∧
    ((NewBuilder cfg).ProcessCandles cs now).1.warmedUp = false := by
  have h1 : (NewBuilder cfg).buffer.size ≤ (NewBuilder cfg).buffer.capacity := by
    simp [NewBuilder, NewRingBuffer]
  have h2 : (NewBuilder cfg).buffer.capacity < (NewBuilder cfg).Warmup := by
    simp only [NewBuilder, NewRingBuffer]
    rw [if_neg (by omega)]
    omega
  obtain ⟨ha, hb⟩ := pushSeq_warming_no_emit cs (NewBuilder cfg) now rfl h1 h2
  exact ⟨ha, hb⟩

theorem warmup_gt_W_never_emits_witness :
    0 < (⟨2, 1, 3, 1, "BTCUSDT", "1m"⟩ : Config).W ∧
    1 ≤ (⟨2, 1, 3, 1, "BTCUSDT", "1m"⟩ : Config).S ∧
    (((⟨2, 1, 3, 1, "BTCUSDT", "1m"⟩ : Config).W : ℤ) <
      (⟨2, 1, 3, 1, "BTCUSDT", "1m"⟩ : Config).Warmup) ∧
    (((NewBuilder ⟨2, 1, 3, 1, "BTCUSDT", "1m"⟩).ProcessCandles [default] 0).2 = [] ∧
      ((NewBuilder ⟨2, 1, 3, 1, "BTCUSDT", "1m"⟩).ProcessCandles [default] 0).1.warmedUp = false) :=
  ⟨by norm_num, by norm_num, by norm_num,
    warmup_gt_W_never_emits ⟨2, 1, 3, 1, "BTCUSDT", "1m"⟩ [default] 0
      (by norm_num) (by norm_num) (by norm_num)⟩

/-- C2: the claim "pushing sufficiently many candles eventually emits" is
false at the concrete configuration W=2, S=1, Warmup=3: no candle sequence of
any length ever produces an emission. -/
theorem warmup_gt_W_counterexample :
    ¬ ∃ (cs : List Candle) (now : ℤ),
        ((NewBuilder ⟨2, 1, 3, 1, "BTCUSDT", "1m"⟩).ProcessCandles cs now).2 ≠ [] := by
  rintro ⟨cs, now, hne⟩
  exact hne (pushSeq_warming_no_emit cs (NewBuilder ⟨2, 1, 3, 1, "BTCUSDT", "1m"⟩) now rfl
    (by norm_num [NewBuilder, NewRingBuffer]) (by norm_num [NewBuilder, NewRingBuffer])).1

/-- C5: a builder with W=3, S=2, Warmup=3 pushed candles c1..c6 emits exactly
two windows — on the push of c3 (warmup completion forces the step counter to
S) and on the push of c5 — each holding the most recent 3 candles, with at
most one (here: exactly the listed) emission per push. -/
theorem builder_w3_s2_warmup3_emissions (sym tf : String) (fv now : ℤ)
    (c1 c2 c3 c4 c5 c6 : Candle) :
    ((NewBuilder ⟨3, 2, 3, fv, sym, tf⟩).pushSeq [c1, c2, c3, c4, c5, c6] now).2 =
      [none, none,
       some (NewWindow sym tf c3.closeTime 3 fv [c1, c2, c3] now), none,
       some (NewWindow sym tf c5.closeTime 3 fv [c3, c4, c5] now), none] := by
  have h1 : (NewBuilder ⟨3, 2, 3, fv, sym, tf⟩).Push c1 now =
      (⟨3, 2, 3, fv, sym, tf, ⟨[c1, default, default], 3, 1, 1⟩, 1, false⟩, none) := rfl
  have h2 : (Builder.Push ⟨3, 2, 3, fv, sym, tf, ⟨[c1, default, default], 3, 1, 1⟩, 1, false⟩
        c2 now) =
      (⟨3, 2, 3, fv, sym, tf, ⟨[c1, c2, default], 3, 2, 2⟩, 2, false⟩, none) := rfl
  have h3 : (Builder.Push ⟨3, 2, 3, fv, sym, tf, ⟨[c1, c2, default], 3, 2, 2⟩, 2, false⟩
        c3 now) =
      (⟨3, 2, 3, fv, sym, tf, ⟨[c1, c2, c3], 3, 3, 0⟩, 0, true⟩,
       some (NewWindow sym tf c3.closeTime 3 fv [c1, c2, c3] now)) := by
    simp only [Builder.Push, RingBuffer.Push, RingBuffer.Size, RingBuffer.IsFull,
      RingBuffer.Last, RingBuffer.ToSlice, RingBuffer.startIdx]
    norm_num
    rfl
  have h4 : (Builder.Push ⟨3, 2, 3, fv, sym, tf, ⟨[c1, c2, c3], 3, 3, 0⟩, 0, true⟩ c4 now) =
      (⟨3, 2, 3, fv, sym, tf, ⟨[c4, c2, c3], 3, 3, 1⟩, 1, true⟩, none) := rfl
  have h5 : (Builder.Push ⟨3, 2, 3, fv, sym, tf, ⟨[c4, c2, c3], 3, 3, 1⟩, 1, true⟩ c5 now) =
      (⟨3, 2, 3, fv, sym, tf, ⟨[c4, c5, c3], 3, 3, 2⟩, 0, true⟩,
       some (NewWindow sym tf c5.closeTime 3 fv [c3, c4, c5] now)) := by
    simp only [Builder.Push, RingBuffer.Push, RingBuffer.Size, RingBuffer.IsFull,
      RingBuffer.Last, RingBuffer.ToSlice, RingBuffer.startIdx]
    norm_num
    rfl
  have h6 : (Builder.Push ⟨3, 2, 3, fv, sym, tf, ⟨[c4, c5, c3], 3, 3, 2⟩, 0, true⟩ c6 now) =
      (⟨3, 2, 3, fv, sym, tf, ⟨[c4, c5, c6], 3, 3, 0⟩, 1, true⟩, none) := by
    simp only [Builder.Push, RingBuffer.Push, RingBuffer.Size, RingBuffer.IsFull,
      RingBuffer.Last, RingBuffer.ToSlice, RingBuffer.startIdx]
    norm_num
  simp only [Builder.pushSeq, h1, h2, h3, h4, h5, h6]

theorem push_total_iff_capacity_pos_witness :
    1 ≤ (NewRingBuffer 2).capacity ∧
    ((NewRingBuffer 2).PushChecked default = some ((NewRingBuffer 2).Push default)) :=
  ⟨by norm_num [NewRingBuffer],
    (push_total_iff_capacity_pos (NewRingBuffer 2) default).1 (by norm_num [NewRingBuffer])⟩

end Etna
